import Mathlib

/-!
A shallow embedding of the txml XML tokenizer (lib.rs) and proofs about it.

Rust string slices are modelled as lists of characters (`Str`); byte indices
returned by the scanning primitives become character indices, which agree with
the source because every slice boundary in the source falls on a character
boundary produced by find or char_indices. Stateful iterators become explicit
state-passing functions returning a pair of the yielded item and the new state.
-/

namespace Txml

instance {ε α : Type _} [DecidableEq ε] [DecidableEq α] : DecidableEq (Except ε α) :=
  fun a b =>
    match a, b with
    | .ok x, .ok y => decidable_of_iff (x = y) (by simp)
    | .error x, .error y => decidable_of_iff (x = y) (by simp)
    | .ok _, .error _ => .isFalse (by simp)
    | .error _, .ok _ => .isFalse (by simp)

/-- A borrowed slice of the document, as a list of characters. -/
abbrev Str := List Char

/-- The whitespace set used by the source for all trimming and splitting. -/
def WHITESPACE : List Char := [' ', '\t', '\r', '\n']

/-- Membership in the txml whitespace set. -/
def isWs (c : Char) : Bool := WHITESPACE.contains c

/-- Model of str::trim_start_matches(WHITESPACE). -/
def trimStart (s : Str) : Str := s.dropWhile isWs

/-- Model of str::trim_end_matches(WHITESPACE). -/
def trimEnd (s : Str) : Str := (s.reverse.dropWhile isWs).reverse

/-- Model of str::trim_matches(WHITESPACE). -/
def trimMatches (s : Str) : Str := trimEnd (trimStart s)

/-- Model of str::find(char): index of the first occurrence of a character. -/
def findChar (c : Char) : Str → Option Nat
  | [] => none
  | a :: rest => if a = c then some 0 else (findChar c rest).map (· + 1)

/-- Model of str::find(&[char]): index of the first occurrence of any of a
set of characters. -/
def findCharIn (cs : List Char) : Str → Option Nat
  | [] => none
  | a :: rest => if cs.contains a then some 0 else (findCharIn cs rest).map (· + 1)

/-- Model of str::find(&str): index of the first occurrence of a substring. -/
def findSub (pat : Str) : Str → Option Nat
  | [] => if pat.isPrefixOf ([] : Str) then some 0 else none
  | a :: rest =>
    if pat.isPrefixOf (a :: rest) then some 0 else (findSub pat rest).map (· + 1)

/-- The txml error taxonomy (the `Error` enum of the source). -/
inductive Error where
  | AttrInvalidName
  | AttrMissingEq
  | AttrMissingQuote
  | AttrMissingEndQuote
  | AttrInvalidQuote
  | UnterminatedEntity
  | InvalidNamedEntity
  | InvalidNumericEntity
  | UnterminatedComment
  | UnterminatedPi
  | UnterminatedCdata
  | UnterminatedDoctype
  | UnterminatedDoctypeSubset
  | UnterminatedTag
  | UnterminatedClosingTag
  | InvalidTagName
  deriving DecidableEq, Repr

/-- The value of one digit character under a radix, as in char::to_digit:
decimal digits, then letters of either case, rejected when at or above the
radix. -/
def digitVal (radix : Nat) (c : Char) : Option Nat :=
  let n := c.toNat
  let d :=
    if 48 ≤ n ∧ n ≤ 57 then some (n - 48)
    else if 97 ≤ n ∧ n ≤ 122 then some (n - 87)
    else if 65 ≤ n ∧ n ≤ 90 then some (n - 55)
    else none
  match d with
  | some v => if v < radix then some v else none
  | none => none

/-- Accumulating digit loop of integer parsing. -/
def parseDigitsFrom (radix acc : Nat) : Str → Option Nat
  | [] => some acc
  | c :: rest =>
    match digitVal radix c with
    | some d => parseDigitsFrom radix (acc * radix + d) rest
    | none => none

/-- All-digits parse, rejecting the empty string. -/
def parseDigits (radix : Nat) (s : Str) : Option Nat :=
  match s with
  | [] => none
  | _ => parseDigitsFrom radix 0 s

/-- The sign handling of u32::from_str_radix for an unsigned type: strip one
leading plus sign; a minus sign is not stripped and later fails as a digit. -/
def strip_plus : Str → Str
  | '+' :: rest => rest
  | s => s

/-- Model of u32::from_str_radix: an optional leading plus sign, at least one
digit, no minus sign, and the value must fit in 32 bits. -/
def from_str_radix (s : Str) (radix : Nat) : Option Nat :=
  match parseDigits radix (strip_plus s) with
  | some n => if n < 4294967296 then some n else none
  | none => none

/-- Model of char::try_from(u32) success: code points below the surrogate
range, or above it and at most 0x10FFFF. -/
def isValidScalar (n : Nat) : Bool := n < 55296 || (57344 ≤ n && n < 1114112)

/-- The `Text` enum of the source: a raw slice plus a decoding mode. -/
inductive Text where
  | Verbatim (s : Str)
  | Escaped (s : Str)
  deriving DecidableEq, Repr

/-- The underlying slice of a `Text`. -/
def Text.str : Text → Str
  | .Verbatim s => s
  | .Escaped s => s

/-- The numeral half of a numeric entity: parse the digits with the chosen
radix (u32::from_str_radix) and convert to a character (char::try_from);
failure of either step is InvalidNumericEntity and clears the slice. -/
def numericEntityResult (digits : Str) (radix : Nat) (rest : Str) :
    Option (Except Error Char) × Text :=
  match from_str_radix digits radix with
  | some n =>
    if isValidScalar n then (some (.ok (Char.ofNat n)), .Escaped rest)
    else (some (.error .InvalidNumericEntity), .Escaped [])
  | none => (some (.error .InvalidNumericEntity), .Escaped [])

/-- The entity dispatch of `Text::next` (the match on the slice between the
ampersand and the semicolon): the five named entities, then numeric entities
introduced by a hash with an optional lowercase x for hexadecimal, and the
two error outcomes, which clear the slice. -/
def entityResult (esc rest : Str) : Option (Except Error Char) × Text :=
  if esc = "lt".toList then (some (.ok '<'), .Escaped rest)
  else if esc = "gt".toList then (some (.ok '>'), .Escaped rest)
  else if esc = "amp".toList then (some (.ok '&'), .Escaped rest)
  else if esc = "apos".toList then (some (.ok '\''), .Escaped rest)
  else if esc = "quot".toList then (some (.ok '"'), .Escaped rest)
  else
    match esc with
    | '#' :: numTail =>
      match numTail with
      | 'x' :: r => numericEntityResult r 16 rest
      | r => numericEntityResult r 10 rest
    | _ => (some (.error .InvalidNamedEntity), .Escaped [])

/-- One pull on a `Text` iterator (`impl Iterator for Text::next`), returning
the yielded item and the successor state. -/
def Text.next : Text → Option (Except Error Char) × Text
  | .Verbatim s =>
    match s with
    | [] => (none, .Verbatim [])
    | c :: rest => (some (.ok c), .Verbatim rest)
  | .Escaped s =>
    match s with
    | [] => (none, .Escaped [])
    | c :: rest =>
      if c = '&' then
        match findChar ';' (c :: rest) with
        | none => (some (.error .UnterminatedEntity), .Escaped [])
        | some semi =>
          entityResult ((c :: rest).drop 1 |>.take (semi - 1))
            ((c :: rest).drop (semi + 1))
      else (some (.ok c), .Escaped rest)

/-- Fuelled iteration of `Text.next` to a list of yielded items. -/
def Text.decodeFuel : Nat → Text → List (Except Error Char)
  | 0, _ => []
  | n + 1, t =>
    match t.next with
    | (none, _) => []
    | (some r, t') => r :: Text.decodeFuel n t'

/-- The full item sequence of a `Text` iterator; the slice length bounds the
number of pulls that can yield an item, so this fuel is always enough. -/
def Text.decode (t : Text) : List (Except Error Char) :=
  Text.decodeFuel (t.str.length + 1) t

/-- Iterator::eq as invoked by `impl PartialEq for Text`: pull both iterators
in lockstep and compare the items, ending when both end. The fuel bounds the
number of yielding pulls of the left iterator, which its slice length bounds
in turn. -/
def Text.beqFuel : Nat → Text → Text → Bool
  | 0, _, _ => false
  | n + 1, t1, t2 =>
    match t1.next, t2.next with
    | (none, _), (none, _) => true
    | (some a, t1'), (some b, t2') => decide (a = b) && Text.beqFuel n t1' t2'
    | _, _ => false

/-- `impl PartialEq for Text`: equality of the two item sequences. -/
def Text.beq (t1 t2 : Text) : Bool := Text.beqFuel (t1.str.length + 1) t1 t2

/-- The comparison of `impl PartialEq<str> for Text`: the right side is the
character sequence of a plain string, each character wrapped in Ok. -/
def Text.beqStrFuel : Nat → Text → Str → Bool
  | 0, _, _ => false
  | n + 1, t, s =>
    match t.next, s with
    | (none, _), [] => true
    | (some a, t'), c :: cs => decide (a = Except.ok c) && Text.beqStrFuel n t' cs
    | _, _ => false

/-- `impl PartialEq<str> for Text`. -/
def Text.beqStr (t : Text) (s : Str) : Bool := Text.beqStrFuel (t.str.length + 1) t s

/-- The `Attrs` iterator state of the source: the remaining attribute text. -/
structure Attrs where
  text : Str
  deriving DecidableEq, Repr

/-- One pull on an `Attrs` iterator (`impl Iterator for Attrs::next`): locate
the equals sign, trim the name, require a quote character, scan to the
matching quote, and yield the pair; each failure clears the remaining text
except the empty-name check, which runs after the cursor has already been
advanced past the value. -/
def Attrs.next (a : Attrs) : Option (Except Error (Str × Text)) × Attrs :=
  if a.text = [] then (none, a)
  else
    match findChar '=' a.text with
    | none => (some (.error .AttrInvalidName), ⟨[]⟩)
    | some eq =>
      match trimStart (a.text.drop (eq + 1)) with
      | [] => (some (.error .AttrMissingQuote), ⟨[]⟩)
      | quote :: tail =>
        if quote ≠ '\'' ∧ quote ≠ '"' then (some (.error .AttrInvalidQuote), ⟨[]⟩)
        else
          match findChar quote tail with
          | none => (some (.error .AttrMissingEndQuote), ⟨[]⟩)
          | some j =>
            if trimMatches (a.text.take eq) = [] then
              (some (.error .AttrInvalidName), ⟨tail.drop (j + 1)⟩)
            else
              (some (.ok (trimMatches (a.text.take eq), .Escaped (tail.take j))),
                ⟨tail.drop (j + 1)⟩)

/-- Fuelled iteration of `Attrs.next` to a list of yielded items. -/
def Attrs.decodeFuel : Nat → Attrs → List (Except Error (Str × Text))
  | 0, _ => []
  | n + 1, a =>
    match a.next with
    | (none, _) => []
    | (some r, a') => r :: Attrs.decodeFuel n a'

/-- The full item sequence of an `Attrs` iterator; every yielding pull
strictly shrinks the text, so this fuel is always enough. -/
def Attrs.decode (a : Attrs) : List (Except Error (Str × Text)) :=
  Attrs.decodeFuel (a.text.length + 1) a

/-- The XML event type (`Event` in the source). -/
inductive Event where
  | Open (tag : Str) (attrs : Attrs)
  | Close (tag : Str)
  | Doctype (name : Str) (body : Str)
  | Pi (content : Str)
  | Comment (content : Str)
  | Text (t : Text)
  deriving DecidableEq, Repr

/-- The scanner state (`Parser` in the source): the remaining document and
the pending tag name of a self-closing tag awaiting its synthetic close. -/
structure Parser where
  doc : Str
  self_closing : Option Str
  deriving DecidableEq, Repr

/-- Model of Parser::consume_to on a slice: split around the first occurrence
of the pattern, returning the content before it and the remainder after it. -/
def consume_to (s pat : Str) : Option (Str × Str) :=
  match findSub pat s with
  | none => none
  | some i => some (s.take i, s.drop (i + pat.length))

/-- The scanning loop of Parser::consume_to_char_ignoring_quoted_sections as
a character-at-a-time state machine: `q` is the quote character of the open
quoted section, if any, and `i` the index of the next character. Inside a
quoted section only the matching quote is significant; outside, a target
character ends the scan and a quote character opens a section. Running out
of input inside a section is the unterminated-quote error of the source. -/
def ctcFindAux (tc : List Char) : Str → Option Char → Nat → Except Error (Option (Nat × Char))
  | [], some _, _ => .error .AttrMissingEndQuote
  | [], none, _ => .ok none
  | c :: rest, some q, i =>
    if c = q then ctcFindAux tc rest none (i + 1) else ctcFindAux tc rest (some q) (i + 1)
  | c :: rest, none, i =>
    if tc.contains c then .ok (some (i, c))
    else if c = '"' || c = '\'' then ctcFindAux tc rest (some c) (i + 1)
    else ctcFindAux tc rest none (i + 1)

/-- The index and identity of the first target character outside quoted
sections, an error when a quoted section is unterminated, or nothing. -/
def ctcFind (tc : List Char) (s : Str) : Except Error (Option (Nat × Char)) :=
  ctcFindAux tc s none 0

/-- Model of Parser::consume_to_char_ignoring_quoted_sections on a slice:
the found character, the content before it, and the remainder after it. -/
def consume_to_char_ignoring_quoted_sections (s : Str) (tc : List Char) :
    Except Error (Option (Char × Str × Str)) :=
  match ctcFind tc s with
  | .error e => .error e
  | .ok none => .ok none
  | .ok (some (i, c)) => .ok (some (c, s.take i, s.drop (i + 1)))

/-- Model of str::split_once(WHITESPACE): split around the first whitespace
character. -/
def split_once_ws (s : Str) : Option (Str × Str) :=
  match findCharIn WHITESPACE s with
  | none => none
  | some i => some (s.take i, s.drop (i + 1))

/-- Parser::next_inner: classify the next construct of the remaining document
and produce one event, an error, or end of document. Each branch records the
document remainder exactly as the source leaves `self.doc`. -/
def Parser.next_inner_doc (doc : Str) : Except Error (Option Event) × Parser :=
    if "<?".toList.isPrefixOf doc then
      match consume_to (doc.drop 2) "?>".toList with
      | none => (.error .UnterminatedPi, ⟨doc.drop 2, none⟩)
      | some (content, rest) => (.ok (some (.Pi content)), ⟨rest, none⟩)
    else if "<!DOCTYPE".toList.isPrefixOf doc then
      match consume_to_char_ignoring_quoted_sections (doc.drop 9) ['[', '>'] with
      | .error e => (.error e, ⟨doc.drop 9, none⟩)
      | .ok none => (.error .UnterminatedDoctype, ⟨doc.drop 9, none⟩)
      | .ok (some (c, name, rest1)) =>
        if c = '[' then
          match consume_to_char_ignoring_quoted_sections rest1 [']'] with
          | .error e => (.error e, ⟨rest1, none⟩)
          | .ok none => (.error .UnterminatedDoctypeSubset, ⟨rest1, none⟩)
          | .ok (some (_, body, rest2)) =>
            match consume_to rest2 ">".toList with
            | none => (.error .UnterminatedDoctype, ⟨rest2, none⟩)
            | some (_ws, rest3) =>
              (.ok (some (.Doctype (trimMatches name) (trimMatches body))), ⟨rest3, none⟩)
        else (.ok (some (.Doctype (trimMatches name) [])), ⟨rest1, none⟩)
    else if "<!--".toList.isPrefixOf doc then
      match consume_to (doc.drop 4) "-->".toList with
      | none => (.error .UnterminatedComment, ⟨doc.drop 4, none⟩)
      | some (content, rest) => (.ok (some (.Comment content)), ⟨rest, none⟩)
    else if "<![CDATA[".toList.isPrefixOf doc then
      match consume_to (doc.drop 9) "]]>".toList with
      | none => (.error .UnterminatedCdata, ⟨doc.drop 9, none⟩)
      | some (content, rest) => (.ok (some (.Text (.Verbatim content))), ⟨rest, none⟩)
    else if "</".toList.isPrefixOf doc then
      match consume_to (doc.drop 2) ">".toList with
      | none => (.error .UnterminatedClosingTag, ⟨doc.drop 2, none⟩)
      | some (content, rest) =>
        if trimMatches content = [] then (.error .InvalidTagName, ⟨rest, none⟩)
        else (.ok (some (.Close (trimMatches content))), ⟨rest, none⟩)
    else if "<".toList.isPrefixOf doc then
      match consume_to_char_ignoring_quoted_sections (doc.drop 1) ['>'] with
      | .error e => (.error e, ⟨doc.drop 1, none⟩)
      | .ok none => (.error .UnterminatedTag, ⟨doc.drop 1, none⟩)
      | .ok (some (_, content, rest)) =>
        match (split_once_ws content).getD (content, []) with
        | (tag0, after) =>
          if tag0 = [] then (.error .InvalidTagName, ⟨rest, none⟩)
          else
            if tag0.getLast? = some '/' then
              if trimMatches after ≠ [] then
                (.error .InvalidTagName, ⟨rest, some (trimEnd (tag0.take (tag0.length - 1)))⟩)
              else
                (.ok (some (.Open (trimEnd (tag0.take (tag0.length - 1)))
                    ⟨trimMatches after⟩)),
                  ⟨rest, some (trimEnd (tag0.take (tag0.length - 1)))⟩)
            else if (trimMatches after).getLast? = some '/' then
              (.ok (some (.Open tag0
                  ⟨trimEnd ((trimMatches after).take ((trimMatches after).length - 1))⟩)),
                ⟨rest, some tag0⟩)
            else (.ok (some (.Open tag0 ⟨trimMatches after⟩)), ⟨rest, none⟩)
    else if doc.head? = some '&' then
      match findChar ';' doc with
      | some i =>
        (.ok (some (.Text (.Escaped (doc.take (i + 1))))), ⟨doc.drop (i + 1), none⟩)
      | none =>
        (.ok (some (.Text (.Escaped (doc.take ((findCharIn ['<'] doc).getD doc.length))))),
          ⟨doc.drop ((findCharIn ['<'] doc).getD doc.length), none⟩)
    else
      match doc with
      | [] => (.ok none, ⟨[], none⟩)
      | _ =>
        (.ok (some (.Text (.Verbatim (doc.take ((findCharIn ['<', '&'] doc).getD doc.length))))),
          ⟨doc.drop ((findCharIn ['<', '&'] doc).getD doc.length), none⟩)

/-- Parser::next_inner: when a self-closing tag name is pending, emit its
synthetic close and clear the slot; otherwise dispatch on the document. -/
def Parser.next_inner : Parser → Except Error (Option Event) × Parser
  | ⟨doc, some tag⟩ => (.ok (some (.Close tag)), ⟨doc, none⟩)
  | ⟨doc, none⟩ => Parser.next_inner_doc doc

/-- `impl Iterator for Parser::next`: the poisoning wrapper around
`next_inner` that clears both the document and the pending slot on error. -/
def Parser.next (p : Parser) : Option (Except Error Event) × Parser :=
  match p.next_inner with
  | (.ok (some ev), p') => (some (.ok ev), p')
  | (.ok none, p') => (none, p')
  | (.error e, _) => (some (.error e), ⟨[], none⟩)

/-- Fuelled iteration of `Parser.next` to a list of yielded items. -/
def Parser.eventsFuel : Nat → Parser → List (Except Error Event)
  | 0, _ => []
  | n + 1, p =>
    match p.next with
    | (none, _) => []
    | (some r, p') => r :: Parser.eventsFuel n p'

/-- Termination measure of the scanner: twice the remaining document length
plus one when a synthetic close is pending. -/
def Parser.measure (p : Parser) : Nat :=
  2 * p.doc.length + (match p.self_closing with | some _ => 1 | none => 0)

/-- The full event sequence of a parser; the measure strictly decreases on
every yielding pull, so this fuel is always enough. -/
def Parser.events (p : Parser) : List (Except Error Event) :=
  Parser.eventsFuel (p.measure + 1) p

/-- The successor state of one pull, whatever it yields. -/
def Parser.step (p : Parser) : Parser := (p.next).2

/-- Iterated successor states. -/
def Parser.stepN : Nat → Parser → Parser
  | 0, p => p
  | n + 1, p => Parser.stepN n p.step

example : Text.decode (.Escaped "&#60;".toList) = [.ok '<'] := by decide
example : Text.decode (.Escaped "&#x3E;".toList) = [.ok '>'] := by decide
example : Text.decode (.Escaped "&#X3E;".toList) = [.error .InvalidNumericEntity] := by decide
example : Text.decode (.Escaped "&#+60;".toList) = [.ok '<'] := by decide
example : Text.decode (.Escaped "&#x+3E;".toList) = [.ok '>'] := by decide
example : Text.decode (.Escaped "a&lt;b".toList) = [.ok 'a', .ok '<', .ok 'b'] := by decide
example : Text.decode (.Escaped "&bad;xy".toList) = [.error .InvalidNamedEntity] := by decide

example :
    Parser.events ⟨"<el a='v'/>".toList, none⟩ =
      [.ok (.Open "el".toList ⟨"a='v'".toList⟩), .ok (.Close "el".toList)] := by decide

example :
    Attrs.decode ⟨"a='v'".toList⟩ = [.ok ("a".toList, .Escaped "v".toList)] := by decide

example :
    Parser.events ⟨"<element attr>".toList, none⟩ =
      [.ok (.Open "element".toList ⟨"attr".toList⟩)] := by decide

example :
    Attrs.next ⟨"attr".toList⟩ = (some (.error .AttrInvalidName), ⟨[]⟩) := by decide

example :
    Attrs.next ⟨"='v' b='w'".toList⟩ =
      (some (.error .AttrInvalidName), ⟨" b='w'".toList⟩) := by decide

example :
    Attrs.next ⟨" b='w'".toList⟩ =
      (some (.ok ("b".toList, .Escaped "w".toList)), ⟨[]⟩) := by decide

example :
    Parser.events ⟨"<!DOCTYPE greeting [ <!ELEMENT greeting (#PCDATA)> ]>".toList, none⟩ =
      [.ok (.Doctype "greeting".toList "<!ELEMENT greeting (#PCDATA)>".toList)] := by decide

example :
    Parser.events ⟨"<!DOCTYPE greeting SYSTEM \"hello.dtd\">".toList, none⟩ =
      [.ok (.Doctype "greeting SYSTEM \"hello.dtd\"".toList [])] := by decide

example :
    consume_to_char_ignoring_quoted_sections "a\">\"b>c".toList ['>'] =
      .ok (some ('>', "a\">\"b".toList, "c".toList)) := by decide

example :
    Parser.events ⟨"a&b".toList, none⟩ =
      [.ok (.Text (.Verbatim "a".toList)), .ok (.Text (.Escaped "&b".toList))] := by decide

example :
    Parser.next ⟨"<![CDATA[x".toList, none⟩ =
      (some (.error .UnterminatedCdata), ⟨[], none⟩) := by decide

theorem findChar_some_lt {c : Char} {s : Str} {i : Nat} (h : findChar c s = some i) :
    i < s.length := by
  induction s generalizing i with
  | nil => simp [findChar] at h
  | cons a rest ih =>
    simp only [findChar] at h
    split at h
    · cases h
      simp
    · match hr : findChar c rest with
      | none => rw [hr] at h; simp at h
      | some j =>
        rw [hr] at h
        simp only [Option.map_some'] at h
        cases h
        have := ih hr
        simp only [List.length_cons]
        omega

theorem findChar_append_of_not_mem {c : Char} {l r : Str} (h : c ∉ l) :
    findChar c (l ++ c :: r) = some l.length := by
  induction l with
  | nil => simp [findChar]
  | cons a rest ih =>
    have ha : a ≠ c := by intro hc; exact h (hc ▸ List.mem_cons_self a rest)
    have hrest : c ∉ rest := fun hm => h (List.mem_cons_of_mem a hm)
    simp [findChar, ha, ih hrest]

theorem findCharIn_eq_none {cs : List Char} {s : Str} (h : ∀ a ∈ s, a ∉ cs) :
    findCharIn cs s = none := by
  induction s with
  | nil => rfl
  | cons a rest ih =>
    have hmem : a ∈ a :: rest := List.mem_cons_self a rest
    have ih2 := ih (fun b hb => h b (List.mem_cons_of_mem a hb))
    simp [findCharIn, h a hmem, ih2]

theorem findCharIn_pos_of_head {cs : List Char} {a : Char} {rest : Str} {i : Nat}
    (ha : a ∉ cs) (h : findCharIn cs (a :: rest) = some i) : 1 ≤ i := by
  simp [findCharIn, ha] at h
  match hr : findCharIn cs rest with
  | none => rw [hr] at h; simp at h
  | some j => rw [hr] at h; simp at h; omega

theorem length_le_of_isPrefixOf {pat s : Str} (h : pat.isPrefixOf s = true) :
    pat.length ≤ s.length :=
  (List.isPrefixOf_iff_prefix.mp h).length_le

theorem head_mem_of_isPrefixOf {c : Char} {t s : Str} (h : (c :: t).isPrefixOf s = true) :
    c ∈ s := by
  rcases List.isPrefixOf_iff_prefix.mp h with ⟨u, hu⟩
  rw [← hu]
  exact List.mem_append_left u (List.mem_cons_self c t)

theorem findSub_some_le {pat s : Str} {i : Nat} (h : findSub pat s = some i) :
    i + pat.length ≤ s.length := by
  induction s generalizing i with
  | nil =>
    simp only [findSub] at h
    split at h
    · cases h
      have := length_le_of_isPrefixOf (by assumption)
      simp only [List.length_nil] at this ⊢
      omega
    · simp at h
  | cons a rest ih =>
    simp only [findSub] at h
    split at h
    · cases h
      have := length_le_of_isPrefixOf (by assumption)
      omega
    · match hr : findSub pat rest with
      | none => rw [hr] at h; simp at h
      | some j =>
        rw [hr] at h
        simp only [Option.map_some'] at h
        cases h
        have := ih hr
        simp only [List.length_cons]
        omega

theorem consume_to_rest_length {s pat a r : Str} (h : consume_to s pat = some (a, r)) :
    r.length + pat.length ≤ s.length := by
  simp only [consume_to] at h
  match hf : findSub pat s with
  | none => rw [hf] at h; simp at h
  | some i =>
    rw [hf] at h
    simp only [Option.some.injEq, Prod.mk.injEq] at h
    have hb := findSub_some_le hf
    rw [← h.2, List.length_drop]
    omega

theorem ctcFindAux_some_bound {tc : List Char} {s : Str} {q : Option Char} {i k : Nat}
    {c : Char} (h : ctcFindAux tc s q i = .ok (some (k, c))) :
    i ≤ k ∧ k < i + s.length := by
  induction s generalizing q i with
  | nil => cases q <;> simp [ctcFindAux] at h
  | cons a rest ih =>
    cases q with
    | some qc =>
      simp only [ctcFindAux] at h
      split at h <;>
        · have := ih h
          simp only [List.length_cons]
          omega
    | none =>
      simp only [ctcFindAux] at h
      split at h
      · cases h
        simp
      · split at h <;>
          · have := ih h
            simp only [List.length_cons]
            omega

theorem ctc_some_rest_length {s : Str} {tc : List Char} {c : Char} {a r : Str}
    (h : consume_to_char_ignoring_quoted_sections s tc = .ok (some (c, a, r))) :
    r.length < s.length := by
  simp only [consume_to_char_ignoring_quoted_sections, ctcFind] at h
  match hf : ctcFindAux tc s none 0 with
  | .error e => rw [hf] at h; simp at h
  | .ok none => rw [hf] at h; simp at h
  | .ok (some (i, c')) =>
    rw [hf] at h
    simp only [Except.ok.injEq, Option.some.injEq, Prod.mk.injEq] at h
    have hb := ctcFindAux_some_bound hf
    rw [← h.2.2, List.length_drop]
    omega

theorem head_ne_of_single_isPrefixOf_false {c a : Char} {tail : Str}
    (h : ¬ [c].isPrefixOf (a :: tail) = true) : a ≠ c := by
  intro hac
  exact h (by simp [List.isPrefixOf, hac])

set_option maxHeartbeats 1600000 in
theorem next_inner_spec (doc : Str) :
    ∀ res p', Parser.next_inner ⟨doc, none⟩ = (res, p') →
      (res = .ok none → doc = [] ∧ p' = ⟨[], none⟩) ∧
      (∀ ev, res = .ok (some ev) → p'.doc.length < doc.length) := by
  intro res p' h
  rw [show Parser.next_inner ⟨doc, none⟩ = Parser.next_inner_doc doc from rfl] at h
  unfold Parser.next_inner_doc at h
  split at h
  · -- processing instruction
    rename_i hp1
    have hd : 2 ≤ doc.length := by
      have := length_le_of_isPrefixOf hp1
      have h2 : ("<?".toList).length = 2 := by decide
      omega
    split at h
    · cases h
      exact ⟨fun hh => by simp at hh, fun ev hh => by simp at hh⟩
    · rename_i content rest heq
      cases h
      refine ⟨fun hh => by simp at hh, fun ev hh => ?_⟩
      have hr := consume_to_rest_length heq
      have h2 : ("?>".toList).length = 2 := by decide
      rw [h2, List.length_drop] at hr
      show rest.length < doc.length
      omega
  split at h
  · -- doctype
    rename_i hp1
    have hd : 9 ≤ doc.length := by
      have := length_le_of_isPrefixOf hp1
      have h2 : ("<!DOCTYPE".toList).length = 9 := by decide
      omega
    split at h
    · cases h
      exact ⟨fun hh => by simp at hh, fun ev hh => by simp at hh⟩
    · cases h
      exact ⟨fun hh => by simp at hh, fun ev hh => by simp at hh⟩
    · rename_i c name rest1 heq1
      have hr1 := ctc_some_rest_length heq1
      rw [List.length_drop] at hr1
      split at h
      · split at h
        · cases h
          exact ⟨fun hh => by simp at hh, fun ev hh => by simp at hh⟩
        · cases h
          exact ⟨fun hh => by simp at hh, fun ev hh => by simp at hh⟩
        · rename_i c2 body rest2 heq2
          have hr2 := ctc_some_rest_length heq2
          split at h
          · cases h
            exact ⟨fun hh => by simp at hh, fun ev hh => by simp at hh⟩
          · rename_i ws rest3 heq3
            cases h
            refine ⟨fun hh => by simp at hh, fun ev hh => ?_⟩
            have hr3 := consume_to_rest_length heq3
            have h1 : (">".toList).length = 1 := by decide
            rw [h1] at hr3
            show rest3.length < doc.length
            omega
      · cases h
        refine ⟨fun hh => by simp at hh, fun ev hh => ?_⟩
        show rest1.length < doc.length
        omega
  split at h
  · -- comment
    rename_i hp1
    have hd : 4 ≤ doc.length := by
      have := length_le_of_isPrefixOf hp1
      have h2 : ("<!--".toList).length = 4 := by decide
      omega
    split at h
    · cases h
      exact ⟨fun hh => by simp at hh, fun ev hh => by simp at hh⟩
    · rename_i content rest heq
      cases h
      refine ⟨fun hh => by simp at hh, fun ev hh => ?_⟩
      have hr := consume_to_rest_length heq
      have h2 : ("-->".toList).length = 3 := by decide
      rw [h2, List.length_drop] at hr
      show rest.length < doc.length
      omega
  split at h
  · -- cdata
    rename_i hp1
    have hd : 9 ≤ doc.length := by
      have := length_le_of_isPrefixOf hp1
      have h2 : ("<![CDATA[".toList).length = 9 := by decide
      omega
    split at h
    · cases h
      exact ⟨fun hh => by simp at hh, fun ev hh => by simp at hh⟩
    · rename_i content rest heq
      cases h
      refine ⟨fun hh => by simp at hh, fun ev hh => ?_⟩
      have hr := consume_to_rest_length heq
      have h2 : ("]]>".toList).length = 3 := by decide
      rw [h2, List.length_drop] at hr
      show rest.length < doc.length
      omega
  split at h
  · -- closing tag
    rename_i hp1
    have hd : 2 ≤ doc.length := by
      have := length_le_of_isPrefixOf hp1
      have h2 : ("</".toList).length = 2 := by decide
      omega
    split at h
    · cases h
      exact ⟨fun hh => by simp at hh, fun ev hh => by simp at hh⟩
    · rename_i content rest heq
      have hr := consume_to_rest_length heq
      have h1 : (">".toList).length = 1 := by decide
      rw [h1, List.length_drop] at hr
      split at h
      · cases h
        exact ⟨fun hh => by simp at hh, fun ev hh => by simp at hh⟩
      · cases h
        refine ⟨fun hh => by simp at hh, fun ev hh => ?_⟩
        show rest.length < doc.length
        omega
  split at h
  · -- opening tag
    rename_i hp1
    have hd : 1 ≤ doc.length := by
      have := length_le_of_isPrefixOf hp1
      have h2 : ("<".toList).length = 1 := by decide
      omega
    split at h
    · cases h
      exact ⟨fun hh => by simp at hh, fun ev hh => by simp at hh⟩
    · cases h
      exact ⟨fun hh => by simp at hh, fun ev hh => by simp at hh⟩
    · rename_i c0 content rest heq
      have hr := ctc_some_rest_length heq
      rw [List.length_drop] at hr
      split at h
      rename_i tag0 after heq0
      split at h
      · cases h
        exact ⟨fun hh => by simp at hh, fun ev hh => by simp at hh⟩
      · split at h
        · split at h
          · cases h
            exact ⟨fun hh => by simp at hh, fun ev hh => by simp at hh⟩
          · cases h
            refine ⟨fun hh => by simp at hh, fun ev hh => ?_⟩
            show rest.length < doc.length
            omega
        · split at h
          · cases h
            refine ⟨fun hh => by simp at hh, fun ev hh => ?_⟩
            show rest.length < doc.length
            omega
          · cases h
            refine ⟨fun hh => by simp at hh, fun ev hh => ?_⟩
            show rest.length < doc.length
            omega
  split at h
  · -- text run starting with an ampersand
    rename_i hamp
    have hpos : 0 < doc.length := by
      cases doc
      · simp at hamp
      · simp
    split at h
    · rename_i i heq
      cases h
      refine ⟨fun hh => by simp at hh, fun ev hh => ?_⟩
      show (doc.drop (i + 1)).length < doc.length
      rw [List.length_drop]
      omega
    · rename_i heq
      cases h
      refine ⟨fun hh => by simp at hh, fun ev hh => ?_⟩
      cases doc with
      | nil => simp at hamp
      | cons a tail =>
        have ha : a = '&' := by simpa using hamp
        have hane : a ∉ (['<'] : List Char) := by rw [ha]; decide
        have hi : 1 ≤ (findCharIn ['<'] (a :: tail)).getD (a :: tail).length := by
          match hf : findCharIn ['<'] (a :: tail) with
          | none => simp only [Option.getD_none, List.length_cons]; omega
          | some i => simpa using findCharIn_pos_of_head hane hf
        show ((a :: tail).drop ((findCharIn ['<'] (a :: tail)).getD (a :: tail).length)).length
          < (a :: tail).length
        rw [List.length_drop]
        simp only [List.length_cons] at hi ⊢
        omega
  -- verbatim text run or end of document
  rename_i hlt hamp
  split at h
  · cases h
    exact ⟨fun _ => ⟨rfl, rfl⟩, fun ev hh => by simp at hh⟩
  · rename_i hne
    cases h
    refine ⟨fun hh => by simp at hh, fun ev hh => ?_⟩
    cases doc with
    | nil => exact (hne rfl).elim
    | cons a tail =>
      have ha1 : a ≠ '<' := by
        have hlist : "<".toList = ['<'] := rfl
        rw [hlist] at hlt
        exact head_ne_of_single_isPrefixOf_false hlt
      have ha2 : a ≠ '&' := by
        intro hc
        exact hamp (by simp [hc])
      have hane : a ∉ (['<', '&'] : List Char) := by
        simp only [List.mem_cons, List.not_mem_nil, or_false]
        push_neg
        exact ⟨ha1, ha2⟩
      have hi : 1 ≤ (findCharIn ['<', '&'] (a :: tail)).getD (a :: tail).length := by
        match hf : findCharIn ['<', '&'] (a :: tail) with
        | none => simp only [Option.getD_none, List.length_cons]; omega
        | some i => simpa using findCharIn_pos_of_head hane hf
      show ((a :: tail).drop ((findCharIn ['<', '&'] (a :: tail)).getD (a :: tail).length)).length
        < (a :: tail).length
      rw [List.length_drop]
      simp only [List.length_cons] at hi ⊢
      omega

theorem next_inner_nil : Parser.next_inner ⟨[], none⟩ = (.ok none, ⟨[], none⟩) := rfl

theorem next_pending : ∀ doc tag,
    Parser.next ⟨doc, some tag⟩ = (some (.ok (.Close tag)), ⟨doc, none⟩) :=
  fun _ _ => rfl

theorem next_nil : Parser.next ⟨[], none⟩ = (none, ⟨[], none⟩) := rfl

theorem next_error_state {p p' : Parser} {e : Error}
    (h : p.next = (some (.error e), p')) : p' = ⟨[], none⟩ := by
  unfold Parser.next at h
  split at h
  · simp at h
  · simp at h
  · cases h
    rfl

theorem next_some_measure {p : Parser} {r : Except Error Event} {p' : Parser}
    (h : p.next = (some r, p')) : p'.measure < p.measure := by
  obtain ⟨doc, sc⟩ := p
  cases sc with
  | some tag =>
    rw [next_pending doc tag] at h
    cases h
    simp [Parser.measure]
  | none =>
    unfold Parser.next at h
    split at h
    · rename_i ev q heq
      cases h
      have hs := (next_inner_spec doc _ _ heq).2 ev rfl
      obtain ⟨qd, qsc⟩ := p'
      cases qsc <;> simp [Parser.measure] at hs ⊢ <;> omega
    · simp at h
    · rename_i e q heq
      cases h
      cases doc with
      | nil =>
        rw [next_inner_nil] at heq
        simp at heq
      | cons a tail =>
        simp [Parser.measure]

theorem next_none_state {p p2 : Parser} (h : p.next = (none, p2)) : p2 = ⟨[], none⟩ := by
  unfold Parser.next at h
  split at h
  · simp at h
  · rename_i q heq
    cases h
    obtain ⟨doc, sc⟩ := p
    cases sc with
    | some tag => simp [Parser.next_inner] at heq
    | none => exact ((next_inner_spec doc _ _ heq).1 rfl).2
  · simp at h

theorem eventsFuel_nil (n : Nat) : Parser.eventsFuel n ⟨[], none⟩ = [] := by
  cases n
  · rfl
  · rw [Parser.eventsFuel, next_nil]

theorem eventsFuel_error_last (n : Nat) :
    ∀ (p : Parser) (l1 : List (Except Error Event)) (e : Error)
      (l2 : List (Except Error Event)),
      Parser.eventsFuel n p = l1 ++ .error e :: l2 → l2 = [] := by
  induction n with
  | zero =>
    intro p l1 e l2 h
    rw [Parser.eventsFuel] at h
    cases l1 <;> simp at h
  | succ n ih =>
    intro p l1 e l2 h
    rw [Parser.eventsFuel] at h
    match hn : p.next with
    | (none, p2) =>
      rw [hn] at h
      cases l1 <;> simp at h
    | (some r, p2) =>
      rw [hn] at h
      cases l1 with
      | nil =>
        simp only [List.nil_append, List.cons.injEq] at h
        obtain ⟨h1, h2⟩ := h
        subst h1
        have hp2 := next_error_state hn
        subst hp2
        rw [eventsFuel_nil] at h2
        exact h2.symm
      | cons a l1' =>
        simp only [List.cons_append, List.cons.injEq] at h
        exact ih p2 l1' e l2 h.2

theorem next_none_after_measure (m : Nat) :
    ∀ p : Parser, p.measure ≤ m → (Parser.next (Parser.stepN m p)).1 = none := by
  induction m with
  | zero =>
    intro p hm
    obtain ⟨doc, sc⟩ := p
    have hd : doc = [] ∧ sc = none := by
      cases sc with
      | some t => simp [Parser.measure] at hm
      | none =>
        simp [Parser.measure] at hm
        exact ⟨hm, rfl⟩
    obtain ⟨rfl, rfl⟩ := hd
    rw [Parser.stepN, next_nil]
  | succ m ih =>
    intro p hm
    rw [Parser.stepN]
    match hn : p.next with
    | (none, p2) =>
      have hp2 := next_none_state hn
      have hstep : p.step = p2 := by rw [Parser.step, hn]
      rw [hstep, hp2]
      have : (⟨[], none⟩ : Parser).measure ≤ m := by simp [Parser.measure]
      exact ih _ this
    | (some r, p2) =>
      have hlt := next_some_measure hn
      have hstep : p.step = p2 := by rw [Parser.step, hn]
      rw [hstep]
      exact ih _ (by omega)

theorem numericEntityResult_str_le (digits : Str) (radix : Nat) (rest : Str) :
    ((numericEntityResult digits radix rest).2).str.length ≤ rest.length := by
  unfold numericEntityResult
  split
  · split
    · simp [Text.str]
    · simp [Text.str]
  · simp [Text.str]

theorem entityResult_str_le (esc rest : Str) :
    ((entityResult esc rest).2).str.length ≤ rest.length := by
  unfold entityResult
  split
  · simp [Text.str]
  · split
    · simp [Text.str]
    · split
      · simp [Text.str]
      · split
        · simp [Text.str]
        · split
          · simp [Text.str]
          · split
            · split
              · exact numericEntityResult_str_le _ _ _
              · exact numericEntityResult_str_le _ _ _
            · simp [Text.str]

theorem text_next_shrink {t : Text} {r : Except Error Char} {t' : Text}
    (h : t.next = (some r, t')) : t'.str.length < t.str.length := by
  cases t with
  | Verbatim s =>
    cases s with
    | nil => simp [Text.next] at h
    | cons c rest =>
      simp only [Text.next] at h
      cases h
      simp [Text.str]
  | Escaped s =>
    cases s with
    | nil => simp [Text.next] at h
    | cons c rest =>
      simp only [Text.next] at h
      split at h
      · split at h
        · cases h
          simp [Text.str]
        · rename_i semi hfind
          have hle := entityResult_str_le ((c :: rest).drop 1 |>.take (semi - 1))
            ((c :: rest).drop (semi + 1))
          rw [h] at hle
          have hdl : ((c :: rest).drop (semi + 1)).length = (c :: rest).length - (semi + 1) :=
            List.length_drop _ _
          simp only [Text.str, List.length_cons] at hle hdl ⊢
          omega
      · cases h
        simp [Text.str]

theorem decodeFuel_congr : ∀ (n m : Nat) (t : Text), t.str.length < n → t.str.length < m →
    Text.decodeFuel n t = Text.decodeFuel m t := by
  intro n
  induction n with
  | zero => intro m t h _; exact absurd h (Nat.not_lt_zero _)
  | succ n ih =>
    intro m t hn hm
    cases m with
    | zero => exact absurd hm (Nat.not_lt_zero _)
    | succ m =>
      rw [Text.decodeFuel, Text.decodeFuel]
      match ht : t.next with
      | (none, t2) => rfl
      | (some r, t2) =>
        have hs := text_next_shrink ht
        show r :: Text.decodeFuel n t2 = r :: Text.decodeFuel m t2
        rw [ih m t2 (by omega) (by omega)]

theorem decode_none {t : Text} {t2 : Text} (h : t.next = (none, t2)) :
    t.decode = [] := by
  rw [Text.decode, Text.decodeFuel, h]

theorem decode_some {t : Text} {r : Except Error Char} {t2 : Text}
    (h : t.next = (some r, t2)) : t.decode = r :: t2.decode := by
  rw [Text.decode, Text.decodeFuel, h]
  have hs := text_next_shrink h
  show r :: Text.decodeFuel t.str.length t2 = r :: t2.decode
  rw [decodeFuel_congr t.str.length (t2.str.length + 1) t2 (by omega) (by omega)]
  rfl

theorem beqFuel_eq_decode : ∀ (n : Nat) (t1 t2 : Text), t1.str.length < n →
    Text.beqFuel n t1 t2 = decide (t1.decode = t2.decode) := by
  intro n
  induction n with
  | zero => intro t1 t2 h; exact absurd h (Nat.not_lt_zero _)
  | succ n ih =>
    intro t1 t2 h1
    have key : Text.beqFuel (n + 1) t1 t2 =
        (match t1.next, t2.next with
         | (none, _), (none, _) => true
         | (some a, t1'), (some b, t2') => decide (a = b) && Text.beqFuel n t1' t2'
         | _, _ => false) := rfl
    rw [key]
    match ha : t1.next with
    | (none, u1) =>
      match hb : t2.next with
      | (none, u2) =>
        rw [decode_none ha, decode_none hb]
        show true = decide (([] : List (Except Error Char)) = [])
        simp
      | (some b, u2) =>
        rw [decode_none ha, decode_some hb]
        show false = decide (([] : List (Except Error Char)) = b :: u2.decode)
        simp
    | (some a, u1) =>
      match hb : t2.next with
      | (none, u2) =>
        rw [decode_some ha, decode_none hb]
        show false = decide (a :: u1.decode = [])
        simp
      | (some b, u2) =>
        have hs := text_next_shrink ha
        rw [decode_some ha, decode_some hb]
        show (decide (a = b) && Text.beqFuel n u1 u2) =
          decide (a :: u1.decode = b :: u2.decode)
        rw [ih u1 u2 (by omega)]
        simp only [List.cons.injEq]
        rw [Bool.decide_and]

theorem beqStrFuel_eq_decode : ∀ (n : Nat) (t : Text) (s : Str), t.str.length < n →
    Text.beqStrFuel n t s = decide (t.decode = s.map Except.ok) := by
  intro n
  induction n with
  | zero => intro t s h; exact absurd h (Nat.not_lt_zero _)
  | succ n ih =>
    intro t s h1
    have key : Text.beqStrFuel (n + 1) t s =
        (match t.next, s with
         | (none, _), [] => true
         | (some a, t'), c :: cs => decide (a = Except.ok c) && Text.beqStrFuel n t' cs
         | _, _ => false) := rfl
    rw [key]
    cases s with
    | nil =>
      match ha : t.next with
      | (none, u) =>
        rw [decode_none ha]
        show true = decide (([] : List (Except Error Char)) = List.map Except.ok [])
        simp
      | (some a, u) =>
        rw [decode_some ha]
        show false = decide (a :: u.decode = List.map Except.ok [])
        simp
    | cons c cs =>
      match ha : t.next with
      | (none, u) =>
        rw [decode_none ha]
        show false = decide (([] : List (Except Error Char)) = List.map Except.ok (c :: cs))
        simp
      | (some a, u) =>
        have hs := text_next_shrink ha
        rw [decode_some ha]
        show (decide (a = Except.ok c) && Text.beqStrFuel n u cs) =
          decide (a :: u.decode = List.map Except.ok (c :: cs))
        rw [ih u cs (by omega)]
        simp only [List.map_cons, List.cons.injEq]
        rw [Bool.decide_and]

theorem not_mem_cons_of {a c : Char} {t : Str} (h1 : a ≠ c) (h2 : a ∉ t) : a ∉ c :: t := by
  intro hm
  rcases List.mem_cons.mp hm with h | h
  · exact h1 h
  · exact h2 h

theorem cons_ne_cons_of_head {a b : Char} {t u : Str} (hab : a ≠ b) : a :: t ≠ b :: u := by
  intro hcon
  injection hcon with h1 h2
  exact hab h1

theorem text_next_amp (body : Str) (hb : ';' ∉ body) :
    Text.next (.Escaped ('&' :: (body ++ [';']))) = entityResult body [] := by
  have hfind : findChar ';' ('&' :: (body ++ [';'])) = some (body.length + 1) := by
    have h1 : findChar ';' (body ++ ';' :: []) = some body.length :=
      findChar_append_of_not_mem hb
    simp [findChar, h1]
  have key : Text.next (.Escaped ('&' :: (body ++ [';']))) =
      (match findChar ';' ('&' :: (body ++ [';'])) with
       | none => (some (.error .UnterminatedEntity), .Escaped [])
       | some semi =>
         entityResult (('&' :: (body ++ [';'])).drop 1 |>.take (semi - 1))
           (('&' :: (body ++ [';'])).drop (semi + 1))) := rfl
  rw [key, hfind]
  show entityResult ((body ++ [';']).take (body.length + 1 - 1))
      (('&' :: (body ++ [';'])).drop (body.length + 1 + 1)) = entityResult body []
  have h1 : (body ++ [';']).take (body.length + 1 - 1) = body := by
    rw [Nat.add_sub_cancel]
    exact List.take_left body [';']
  have h2 : ('&' :: (body ++ [';'])).drop (body.length + 1 + 1) = [] := by
    rw [List.drop_succ_cons]
    have hl : (body ++ [';']).length = body.length + 1 := by simp
    rw [← hl, List.drop_length]
  rw [h1, h2]

theorem entityResult_hash (numTail rest : Str) :
    entityResult ('#' :: numTail) rest =
      (match numTail with
       | 'x' :: r => numericEntityResult r 16 rest
       | r => numericEntityResult r 10 rest) := by
  unfold entityResult
  rw [if_neg (show ¬('#' :: numTail = "lt".toList) from cons_ne_cons_of_head (by decide)),
    if_neg (show ¬('#' :: numTail = "gt".toList) from cons_ne_cons_of_head (by decide)),
    if_neg (show ¬('#' :: numTail = "amp".toList) from cons_ne_cons_of_head (by decide)),
    if_neg (show ¬('#' :: numTail = "apos".toList) from cons_ne_cons_of_head (by decide)),
    if_neg (show ¬('#' :: numTail = "quot".toList) from cons_ne_cons_of_head (by decide))]
  split
  · rename_i nt heq
    injection heq with h1 h2
    subst h2
    rfl
  · rename_i x hx
    exact (hx numTail rfl).elim

theorem no_markup_next (s : Str) (hne : s ≠ []) (hlt : '<' ∉ s) (hamp : '&' ∉ s) :
    Parser.next ⟨s, none⟩ = (some (.ok (.Text (.Verbatim s))), ⟨[], none⟩) := by
  have key : ∀ t : Str, (('<' :: t).isPrefixOf s) = false := by
    intro t
    cases hx : ('<' :: t).isPrefixOf s
    · rfl
    · exact absurd (head_mem_of_isPrefixOf hx) hlt
  have k1 : ("<?".toList.isPrefixOf s) = false := key "?".toList
  have k2 : ("<!DOCTYPE".toList.isPrefixOf s) = false := key "!DOCTYPE".toList
  have k3 : ("<!--".toList.isPrefixOf s) = false := key "!--".toList
  have k4 : ("<![CDATA[".toList.isPrefixOf s) = false := key "![CDATA[".toList
  have k5 : ("</".toList.isPrefixOf s) = false := key "/".toList
  have k6 : ("<".toList.isPrefixOf s) = false := key "".toList
  have k7 : ¬ s.head? = some '&' := by
    intro hh
    cases s with
    | nil => simp at hh
    | cons a tail =>
      have : a = '&' := by simpa using hh
      exact hamp (this ▸ List.mem_cons_self a tail)
  have hfind : findCharIn ['<', '&'] s = none := by
    apply findCharIn_eq_none
    intro x hx
    intro hmem
    rcases List.mem_cons.mp hmem with h | h
    · exact hlt (h ▸ hx)
    · rcases List.mem_cons.mp h with h2 | h2
      · exact hamp (h2 ▸ hx)
      · simp at h2
  have hinner : Parser.next_inner_doc s = (.ok (some (.Text (.Verbatim s))), ⟨[], none⟩) := by
    unfold Parser.next_inner_doc
    rw [if_neg (by rw [k1]; exact Bool.false_ne_true),
      if_neg (by rw [k2]; exact Bool.false_ne_true),
      if_neg (by rw [k3]; exact Bool.false_ne_true),
      if_neg (by rw [k4]; exact Bool.false_ne_true),
      if_neg (by rw [k5]; exact Bool.false_ne_true),
      if_neg (by rw [k6]; exact Bool.false_ne_true),
      if_neg k7]
    cases s with
    | nil => exact absurd rfl hne
    | cons a tail =>
      show (Except.ok (some (Event.Text (Text.Verbatim ((a :: tail).take
          ((findCharIn ['<', '&'] (a :: tail)).getD (a :: tail).length))))),
        (⟨(a :: tail).drop ((findCharIn ['<', '&'] (a :: tail)).getD (a :: tail).length),
          none⟩ : Parser)) =
        (Except.ok (some (Event.Text (Text.Verbatim (a :: tail)))),
          (⟨[], none⟩ : Parser))
      rw [hfind]
      show (Except.ok (some (Event.Text (Text.Verbatim ((a :: tail).take
          (a :: tail).length)))),
        (⟨(a :: tail).drop (a :: tail).length, none⟩ : Parser)) =
        (Except.ok (some (Event.Text (Text.Verbatim (a :: tail)))),
          (⟨[], none⟩ : Parser))
      rw [List.take_length, List.drop_length]
  unfold Parser.next
  rw [show Parser.next_inner ⟨s, none⟩ = Parser.next_inner_doc s from rfl, hinner]

theorem attrs_next_of_empty (a : Attrs) (h : a.text = []) : (Attrs.next a).1 = none := by
  obtain ⟨t⟩ := a
  have ht : t = [] := h
  subst ht
  rfl

theorem strip_plus_eq_self {ds : Str} (h : ds.head? ≠ some '+') : strip_plus ds = ds := by
  cases ds with
  | nil => rfl
  | cons d dt =>
    have hd : d ≠ '+' := fun hc => h (by simp [hc])
    rw [strip_plus.eq_def]
    split
    · rename_i rest heq
      injection heq with h1 h2
      exact absurd h1 hd
    · rfl

/-- Claim C1: once the Parser yields an Error, both the remaining document
and the pending self-closing slot are cleared, every later pull yields
end-of-stream, and in the whole event sequence an error can only be the last
item. -/
theorem parser_error_is_terminal : ∀ p : Parser,
    (∀ (e : Error) (p' : Parser), Parser.next p = (some (.error e), p') →
      p' = ⟨[], none⟩ ∧ (Parser.next p').1 = none) ∧
    (∀ (l1 : List (Except Error Event)) (e : Error) (l2 : List (Except Error Event)),
      Parser.events p = l1 ++ .error e :: l2 → l2 = []) := by
  intro p
  constructor
  · intro e p' h
    have hp := next_error_state h
    subst hp
    exact ⟨rfl, rfl⟩
  · intro l1 e l2 h
    exact eventsFuel_error_last (p.measure + 1) p l1 e l2 h

/-- Witness for C1 at the input "<![CDATA[x", whose only pull errors. -/
theorem parser_error_is_terminal_witness :
    ((⟨[], none⟩ : Parser) = ⟨[], none⟩ ∧ (Parser.next ⟨[], none⟩).1 = none) ∧
    ([] : List (Except Error Event)) = [] :=
  ⟨(parser_error_is_terminal ⟨"<![CDATA[x".toList, none⟩).1 .UnterminatedCdata ⟨[], none⟩
      (by decide),
    (parser_error_is_terminal ⟨"<![CDATA[x".toList, none⟩).2 [] .UnterminatedCdata []
      (by decide)⟩

/-- Claim C2 (code bug): on attribute text with no equals sign the code
returns AttrInvalidName, although the AttrMissingEq variant exists precisely
for this case, is documented as "equals character not found in attribute",
is expected by the test named no_equals_character_in_attribute, and is never
produced anywhere else; afterwards the iterator is exhausted. -/
theorem attrs_no_eq_yields_invalid_name :
    Parser.events ⟨"<element attr>".toList, none⟩ =
      [.ok (.Open "element".toList ⟨"attr".toList⟩)] ∧
    Attrs.next ⟨"attr".toList⟩ = (some (.error .AttrInvalidName), ⟨[]⟩) ∧
    Attrs.next ⟨"attr".toList⟩ ≠ (some (.error .AttrMissingEq), ⟨[]⟩) ∧
    (Attrs.next ⟨([] : Str)⟩).1 = none :=
  ⟨by decide, by decide, by decide, rfl⟩

/-- Counterexample to C3: the AttrInvalidName error for an empty trimmed name
leaves the cursor after the parsed value instead of clearing it, and the very
next pull yields a further pair. -/
theorem attrs_empty_name_error_does_not_poison :
    Attrs.next ⟨"='v' b='w'".toList⟩ =
      (some (.error .AttrInvalidName), ⟨" b='w'".toList⟩) ∧
    (Attrs.next ⟨" b='w'".toList⟩).1 = some (.ok ("b".toList, .Escaped "w".toList)) :=
  ⟨by decide, by decide⟩

/-- Claim C3 as amended: the missing-quote, invalid-quote, missing-end-quote
and missing-equals errors clear the remaining substring, and a cleared
substring makes every later pull yield nothing; but the empty-name
AttrInvalidName error advances the cursor past the parsed value, so
iteration can continue after it. -/
theorem attrs_error_poisoning_amended : ∀ (a : Attrs) (e : Error) (a' : Attrs),
    Attrs.next a = (some (.error e), a') →
    ((e = .AttrMissingQuote ∨ e = .AttrInvalidQuote ∨ e = .AttrMissingEndQuote →
        a'.text = []) ∧
      (findChar '=' a.text = none → a'.text = []) ∧
      (a'.text = [] → (Attrs.next a').1 = none)) := by
  intro a e a' h
  unfold Attrs.next at h
  split at h
  · simp at h
  · split at h
    · cases h
      exact ⟨fun _ => rfl, fun _ => rfl, fun _ => rfl⟩
    · rename_i eqi heqi
      split at h
      · cases h
        exact ⟨fun _ => rfl, fun _ => rfl, fun _ => rfl⟩
      · rename_i quote tail heqr
        split at h
        · cases h
          exact ⟨fun _ => rfl, fun _ => rfl, fun _ => rfl⟩
        · split at h
          · cases h
            exact ⟨fun _ => rfl, fun _ => rfl, fun _ => rfl⟩
          · rename_i j hj
            split at h
            · cases h
              refine ⟨fun hd => ?_, fun hn => ?_, fun hz => attrs_next_of_empty _ hz⟩
              · rcases hd with h1 | h1 | h1 <;> cases h1
              · rw [hn] at heqi
                cases heqi
            · simp at h

/-- Witness for C3 at attribute text "attr", whose pull errors with no
equals sign present. -/
theorem attrs_error_poisoning_amended_witness :
    ((Error.AttrInvalidName = .AttrMissingQuote ∨
        Error.AttrInvalidName = .AttrInvalidQuote ∨
        Error.AttrInvalidName = .AttrMissingEndQuote →
          (⟨[]⟩ : Attrs).text = []) ∧
      (findChar '=' (⟨"attr".toList⟩ : Attrs).text = none → (⟨[]⟩ : Attrs).text = []) ∧
      ((⟨[]⟩ : Attrs).text = [] → (Attrs.next (⟨[]⟩ : Attrs)).1 = none)) :=
  attrs_error_poisoning_amended ⟨"attr".toList⟩ .AttrInvalidName ⟨[]⟩ (by decide)

/-- Claim C4: the input with one self-closing tag yields exactly Open then
Close; the Open carries the attribute text with the slash stripped, decoding
to the single expected pair; and in general a pending self-closing name makes
the next pull emit the synthetic Close and clear the slot without touching
the document. -/
theorem self_closing_tag_two_events :
    Parser.events ⟨"<el a='v'/>".toList, none⟩ =
      [.ok (.Open "el".toList ⟨"a='v'".toList⟩), .ok (.Close "el".toList)] ∧
    Attrs.decode ⟨"a='v'".toList⟩ = [.ok ("a".toList, .Escaped "v".toList)] ∧
    (∀ (doc : Str) (tag : Str),
      Parser.next ⟨doc, some tag⟩ = (some (.ok (.Close tag)), ⟨doc, none⟩)) :=
  ⟨by decide, by decide, next_pending⟩

/-- Counterexample to C5: an input without markup but with an interior
ampersand produces two Text events, not one Escaped event equal to the whole
input. -/
theorem text_run_splits_at_ampersand :
    Parser.events ⟨"a&b".toList, none⟩ =
      [.ok (.Text (.Verbatim "a".toList)), .ok (.Text (.Escaped "&b".toList))] ∧
    Parser.events ⟨"a&b".toList, none⟩ ≠ [.ok (.Text (.Escaped "a&b".toList))] :=
  ⟨by decide, by decide⟩

/-- Claim C5 as amended: for every non-empty input containing neither an
angle bracket nor an ampersand, the event stream is exactly one Verbatim
Text event carrying the whole input. -/
theorem no_markup_single_verbatim_event : ∀ s : Str, s ≠ [] → '<' ∉ s → '&' ∉ s →
    Parser.events ⟨s, none⟩ = [.ok (.Text (.Verbatim s))] := by
  intro s hne hlt hamp
  have hnext := no_markup_next s hne hlt hamp
  unfold Parser.events
  rw [Parser.eventsFuel, hnext]
  show Except.ok (Event.Text (Text.Verbatim s)) ::
      Parser.eventsFuel (Parser.measure ⟨s, none⟩) ⟨[], none⟩ =
    [Except.ok (Event.Text (Text.Verbatim s))]
  rw [eventsFuel_nil]

/-- Witness for C5 at the input "ab". -/
theorem no_markup_single_verbatim_event_witness :
    Parser.events ⟨"ab".toList, none⟩ = [.ok (.Text (.Verbatim "ab".toList))] :=
  no_markup_single_verbatim_event "ab".toList (by decide) (by decide) (by decide)

/-- Counterexample to C6: an uppercase X after the hash is not treated as a
hexadecimal marker; the digits fail the decimal parse and the entity is
rejected instead of decoding. -/
theorem uppercase_x_numeric_entity_rejected :
    Text.decode (.Escaped "&#X3E;".toList) = [.error .InvalidNumericEntity] ∧
    Text.decode (.Escaped "&#X3E;".toList) ≠ [.ok '>'] :=
  ⟨by decide, by decide⟩

/-- Claim C6 as amended: only a lowercase x after the hash selects
hexadecimal, otherwise the numeral is decimal; in either radix the numeral
must parse as a 32-bit integer and denote a valid code point, and each
failure of either step gives InvalidNumericEntity; the two spec examples
decode as stated. -/
theorem numeric_entity_decoding_amended :
    Text.decode (.Escaped "&#60;".toList) = [.ok '<'] ∧
    Text.decode (.Escaped "&#x3E;".toList) = [.ok '>'] ∧
    (∀ (ds : Str) (n : Nat), ';' ∉ ds → from_str_radix ds 16 = some n →
      isValidScalar n = true →
      Text.next (.Escaped ('&' :: ('#' :: 'x' :: ds ++ [';']))) =
        (some (.ok (Char.ofNat n)), .Escaped [])) ∧
    (∀ (ds : Str) (n : Nat), ';' ∉ ds → ds.head? ≠ some 'x' →
      from_str_radix ds 10 = some n → isValidScalar n = true →
      Text.next (.Escaped ('&' :: ('#' :: ds ++ [';']))) =
        (some (.ok (Char.ofNat n)), .Escaped [])) ∧
    (∀ ds : Str, ';' ∉ ds → ds.head? ≠ some 'x' →
      (from_str_radix ds 10 = none ∨
        ∃ n, from_str_radix ds 10 = some n ∧ isValidScalar n = false) →
      Text.next (.Escaped ('&' :: ('#' :: ds ++ [';']))) =
        (some (.error .InvalidNumericEntity), .Escaped [])) ∧
    (∀ ds : Str, ';' ∉ ds →
      (from_str_radix ds 16 = none ∨
        ∃ n, from_str_radix ds 16 = some n ∧ isValidScalar n = false) →
      Text.next (.Escaped ('&' :: ('#' :: 'x' :: ds ++ [';']))) =
        (some (.error .InvalidNumericEntity), .Escaped [])) ∧
    Text.decode (.Escaped "&#xZZ;".toList) = [.error .InvalidNumericEntity] ∧
    Text.decode (.Escaped "&#xD800;".toList) = [.error .InvalidNumericEntity] ∧
    Text.decode (.Escaped "&#x110000;".toList) = [.error .InvalidNumericEntity] := by
  refine ⟨by decide, by decide, ?_, ?_, ?_, ?_, by decide, by decide, by decide⟩
  · intro ds n hsemi hfsr hvalid
    have hb : ';' ∉ ('#' :: 'x' :: ds) :=
      not_mem_cons_of (by decide) (not_mem_cons_of (by decide) hsemi)
    rw [text_next_amp _ hb, entityResult_hash]
    show numericEntityResult ds 16 [] = (some (.ok (Char.ofNat n)), .Escaped [])
    simp [numericEntityResult, hfsr, hvalid]
  · intro ds n hsemi hdx hfsr hvalid
    have hb : ';' ∉ ('#' :: ds) := not_mem_cons_of (by decide) hsemi
    rw [text_next_amp _ hb, entityResult_hash]
    split
    · rename_i r
      exact absurd rfl hdx
    · simp [numericEntityResult, hfsr, hvalid]
  · intro ds hsemi hdx hfail
    have hb : ';' ∉ ('#' :: ds) := not_mem_cons_of (by decide) hsemi
    rw [text_next_amp _ hb, entityResult_hash]
    split
    · rename_i r
      exact absurd rfl hdx
    · rcases hfail with hnone | ⟨n, hsome, hinv⟩
      · simp [numericEntityResult, hnone]
      · simp [numericEntityResult, hsome, hinv]
  · intro ds hsemi hfail
    have hb : ';' ∉ ('#' :: 'x' :: ds) :=
      not_mem_cons_of (by decide) (not_mem_cons_of (by decide) hsemi)
    rw [text_next_amp _ hb, entityResult_hash]
    show numericEntityResult ds 16 [] = (some (.error .InvalidNumericEntity), .Escaped [])
    rcases hfail with hnone | ⟨n, hsome, hinv⟩
    · simp [numericEntityResult, hnone]
    · simp [numericEntityResult, hsome, hinv]

/-- Witness for C6 at the hexadecimal entity with digit text "3E". -/
theorem numeric_entity_decoding_amended_witness :
    Text.next (.Escaped ('&' :: ('#' :: 'x' :: "3E".toList ++ [';']))) =
      (some (.ok (Char.ofNat 62)), .Escaped []) :=
  numeric_entity_decoding_amended.2.2.1 "3E".toList 62 (by decide) (by decide) (by decide)

/-- Claim C7: the two doctype examples produce the stated Doctype events,
names and internal subsets trimmed; and the quote-aware scan skips target
characters inside quoted sections, shown for an angle bracket and a square
bracket hidden inside quotes. -/
theorem doctype_examples_and_quote_scan :
    Parser.events ⟨"<!DOCTYPE greeting [ <!ELEMENT greeting (#PCDATA)> ]>".toList, none⟩ =
      [.ok (.Doctype "greeting".toList "<!ELEMENT greeting (#PCDATA)>".toList)] ∧
    Parser.events ⟨"<!DOCTYPE greeting SYSTEM \"hello.dtd\">".toList, none⟩ =
      [.ok (.Doctype "greeting SYSTEM \"hello.dtd\"".toList [])] ∧
    consume_to_char_ignoring_quoted_sections "a\">\"b>c".toList ['>'] =
      .ok (some ('>', "a\">\"b".toList, "c".toList)) ∧
    consume_to_char_ignoring_quoted_sections "a'['b[c".toList ['[', '>'] =
      .ok (some ('[', "a'['b".toList, "c".toList)) :=
  ⟨by decide, by decide, by decide, by decide⟩

/-- Claim C8: Text equality (between two Text values, or a Text and a plain
string) holds exactly when the fully decoded item sequences agree
element-wise, and in particular a Verbatim angle bracket equals the Escaped
lt entity. -/
theorem text_eq_iff_decoded_sequences_eq :
    (∀ t1 t2 : Text, Text.beq t1 t2 = decide (t1.decode = t2.decode)) ∧
    (∀ (t : Text) (s : Str), Text.beqStr t s = decide (t.decode = s.map Except.ok)) ∧
    Text.beq (.Verbatim "<".toList) (.Escaped "&lt;".toList) = true :=
  ⟨fun t1 t2 => beqFuel_eq_decode (t1.str.length + 1) t1 t2 (by omega),
    fun t s => beqStrFuel_eq_decode (t.str.length + 1) t s (by omega),
    by decide⟩

/-- Claim C9: every successful pull either serves the pending self-closing
slot without touching the document or strictly shrinks the document; every
error clears the state entirely; and repeated pulls always reach
end-of-stream. -/
theorem parser_progress_and_termination : ∀ p : Parser,
    (∀ (ev : Event) (p' : Parser), Parser.next p = (some (.ok ev), p') →
      (p.self_closing ≠ none ∧ p'.doc = p.doc ∧ p'.self_closing = none) ∨
        p'.doc.length < p.doc.length) ∧
    (∀ (e : Error) (p' : Parser), Parser.next p = (some (.error e), p') →
      p' = ⟨[], none⟩) ∧
    (∃ n, (Parser.next (Parser.stepN n p)).1 = none) := by
  intro p
  refine ⟨?_, ?_, ?_⟩
  · intro ev p' h
    obtain ⟨doc, sc⟩ := p
    cases sc with
    | some tag =>
      rw [next_pending doc tag] at h
      cases h
      exact Or.inl ⟨by simp, rfl, rfl⟩
    | none =>
      unfold Parser.next at h
      split at h
      · rename_i ev2 q heq
        cases h
        exact Or.inr ((next_inner_spec doc _ _ heq).2 _ rfl)
      · simp at h
      · simp at h
  · intro e p' h
    exact next_error_state h
  · exact ⟨p.measure, next_none_after_measure p.measure p le_rfl⟩

/-- Witness for C9 at the inputs "ab" (a successful shrinking pull) and
"<![CDATA[x" (an erroring pull). -/
theorem parser_progress_and_termination_witness :
    (((⟨"ab".toList, none⟩ : Parser).self_closing ≠ none ∧
        (⟨[], none⟩ : Parser).doc = (⟨"ab".toList, none⟩ : Parser).doc ∧
        (⟨[], none⟩ : Parser).self_closing = none) ∨
      (⟨[], none⟩ : Parser).doc.length < (⟨"ab".toList, none⟩ : Parser).doc.length) ∧
    ((⟨[], none⟩ : Parser) = ⟨[], none⟩) :=
  ⟨(parser_progress_and_termination ⟨"ab".toList, none⟩).1
      (.Text (.Verbatim "ab".toList)) ⟨[], none⟩ (by decide),
    (parser_progress_and_termination ⟨"<![CDATA[x".toList, none⟩).2.1 .UnterminatedCdata
      ⟨[], none⟩ (by decide)⟩

/-- Claim C10: a numeric entity whose digit text carries a leading plus sign
decodes like the unsigned form, because the integer parser strips one
optional leading plus sign. -/
theorem plus_signed_numeric_entity_accepted :
    Text.decode (.Escaped "&#+60;".toList) = [.ok '<'] ∧
    Text.decode (.Escaped "&#x+3E;".toList) = [.ok '>'] ∧
    (∀ (ds : Str) (radix : Nat), ds.head? ≠ some '+' →
      from_str_radix ('+' :: ds) radix = from_str_radix ds radix) := by
  refine ⟨by decide, by decide, ?_⟩
  intro ds radix hds
  unfold from_str_radix
  rw [show strip_plus ('+' :: ds) = ds from rfl, strip_plus_eq_self hds]

/-- Witness for C10 at the digit text "60" in base ten. -/
theorem plus_signed_numeric_entity_accepted_witness :
    from_str_radix ('+' :: "60".toList) 10 = from_str_radix "60".toList 10 :=
  plus_signed_numeric_entity_accepted.2.2 "60".toList 10 (by decide)

end Txml
